import Mathlib

/-!
Verification of the `git-intel` history-mining engine.

This file gives a shallow embedding, in Lean 4, of the pure core of the
`git-intel` tool (commit classifier, ticket extraction, commit stream
filtering, result cache, bus factor, and the pattern/signal detectors),
translated from the Rust sources under `src/tools/git-intel/src/`, and
proves the specified properties about them.

Modelling conventions:
- Rust strings are modelled at the level of their character sequences
  (`List Char`).  The Rust byte-level scans (`is_ascii_uppercase` etc.)
  agree with the character-level scans on ASCII input.
- Rust `f64` arithmetic on severities/thresholds is modelled with `ℚ`;
  all values involved are small dyadic-free rationals whose comparisons
  match the `f64` computations on realistic sizes.
- Rust `HashMap`s are modelled as association lists keyed in first-insertion
  order; the Rust iteration order is unspecified, so any deterministic
  order is a faithful refinement.
- Sorting: the Rust sorts (`sort_by`, `sort_by_key`, `sort`) are stable;
  we use `List.insertionSort`, which is a stable sort.
-/

namespace GitIntel

/-! ### Character-level string helpers (shared by the classifier and
ticket extraction; they model the corresponding Rust `str` operations). -/

/-- Strip one trailing carriage return, as Rust's `str::lines` does after
splitting on a newline. -/
def stripCr (l : List Char) : List Char :=
  match l.getLast? with
  | some c => if c = '\r' then l.dropLast else l
  | none => l

/-- First line of a message: characters up to the first newline, with one
trailing `\r` stripped when a newline was present.  Models
`message.lines().next().unwrap_or("")` from `common.rs`. -/
def firstLineChars (l : List Char) : List Char :=
  let t := l.takeWhile (fun c => !(c = '\n'))
  if t.length < l.length then stripCr t else t

/-- ASCII lowercasing of a character list; models `str::to_lowercase` on
ASCII input. -/
def lowerChars (l : List Char) : List Char := l.map Char.toLower

/-- Find the index of the first occurrence of the pattern `pat` as a
contiguous sublist; models `str::find(pattern)`. -/
def findSub (pat : List Char) : List Char → Option Nat
  | [] => if pat.isEmpty then some 0 else none
  | c :: rest =>
    if pat.isPrefixOf (c :: rest) then some 0
    else (findSub pat rest).map (· + 1)

/-- Whether `pat` occurs as a contiguous sublist; models `str::contains`. -/
def containsSub (pat l : List Char) : Bool := (findSub pat l).isSome

/-- Split a character list at `/`; models `str::split('/').collect()` from
`common.rs` (`dir_prefix`). -/
def splitSlash : List Char → List (List Char)
  | [] => [[]]
  | c :: rest =>
    if c = '/' then [] :: splitSlash rest
    else
      match splitSlash rest with
      | [] => [[c]]
      | h :: t => (c :: h) :: t

/-- Join character lists with `/`; models `Vec::join("/")`. -/
def joinSlash : List (List Char) → List Char
  | [] => []
  | [p] => p
  | p :: rest => p ++ '/' :: joinSlash rest

/-- Translation of `dir_prefix` from `common.rs` (the source name ends in a
word this development avoids in identifiers): the directory prefix of a
path at the given depth. -/
def dir_at_depth (path : String) (depth : Nat) : String :=
  if depth = 0 then "."
  else
    let parts := splitSlash path.data
    if parts.length ≤ depth then
      if parts.length = 1 then "."
      else String.mk (joinSlash (parts.take (parts.length - 1)))
    else String.mk (joinSlash (parts.take depth))

/-! ### Message classifier (`classify_commit`, `classify_commit_with_parents`
from `common.rs`) -/

/-- The conventional-commit prefix table from `classify_commit`. -/
def conventionalTypes : List (List Char × String) :=
  [("feat".data, "feat"), ("fix".data, "fix"), ("chore".data, "chore"),
   ("docs".data, "docs"), ("refactor".data, "refactor"), ("test".data, "test"),
   ("style".data, "style"), ("perf".data, "perf"), ("ci".data, "ci"),
   ("build".data, "build")]

/-- The loop over `types` in `classify_commit`: try each conventional
prefix in order; the prefix must be followed by end-of-string, `:`, `(`,
`!`, or whitespace. -/
def convLoop (lower : List Char) : List (List Char × String) → Option String
  | [] => none
  | (pre, label) :: rest =>
    if pre.isPrefixOf lower then
      let r := lower.drop pre.length
      if r.isEmpty ∨ (r.headD ' ' = ':') ∨ (r.headD ' ' = '(') ∨
          (r.headD ' ' = '!') ∨ (r.headD 'x').isWhitespace then
        some label
      else convLoop lower rest
    else convLoop lower rest

/-- Translation of `classify_commit` from `common.rs`: classify a commit
message into a conventional-commit type, evaluating on the lowercased
first line.  Priority: revert > release > conventional prefix > natural
language heuristics > "other". -/
def classify_commit (message : String) : String :=
  let first_line := firstLineChars message.data
  let lower := lowerChars first_line
  if "revert \"".data.isPrefixOf lower ∨ "revert: ".data.isPrefixOf lower ∨
      "revert:".data.isPrefixOf lower ∨ "revert(".data.isPrefixOf lower then
    "revert"
  else if (match lower with
           | 'v' :: d :: _ => d.isDigit
           | _ => false) then
    "release"
  else if containsSub "release".data lower ∨ containsSub "bump version".data lower then
    "release"
  else
    match convLoop lower conventionalTypes with
    | some label => label
    | none =>
      if "fixed ".data.isPrefixOf lower ∨ "fixed:".data.isPrefixOf lower then "fix"
      else if "added ".data.isPrefixOf lower ∨ "added:".data.isPrefixOf lower then "feat"
      else if "bugfix".data.isPrefixOf lower ∨ "bug fix".data.isPrefixOf lower then "fix"
      else if "hotfix".data.isPrefixOf lower then "fix"
      else if containsSub "fixes #".data lower ∨ containsSub "fixed #".data lower ∨
          containsSub "closes #".data lower then "fix"
      else "other"

/-- Translation of `classify_commit_with_parents` from `common.rs`: merge
commits (2+ parents) are always classified as "merge" regardless of the
message. -/
def classify_commit_with_parents (message : String) (parent_count : Nat) : String :=
  if parent_count ≥ 2 then "merge" else classify_commit message

/-! ### Ticket-reference extraction (`extract_ticket_ref`, `is_jira_ref`,
`find_jira_ref`, `extract_digits` from `common.rs`) -/

/-- Translation of `is_jira_ref`: 2+ uppercase ASCII letters, a dash, then
1+ ASCII digits, consuming the entire string. -/
def is_jira_ref (s : List Char) : Bool :=
  let us := s.takeWhile Char.isUpper
  let r1 := s.dropWhile Char.isUpper
  if us.length < 2 then false
  else
    match r1 with
    | '-' :: r2 =>
      let ds := r2.takeWhile Char.isDigit
      let r3 := r2.dropWhile Char.isDigit
      !ds.isEmpty && r3.isEmpty
    | _ => false

/-- Translation of `extract_digits`: the leading run of ASCII digits, or
none when there is no leading digit. -/
def extract_digits (s : List Char) : Option (List Char) :=
  let ds := s.takeWhile Char.isDigit
  if ds.isEmpty then none else some ds

/-- The scanning loop of `find_jira_ref`, with the previous character kept
for the leading word-boundary check and fuel for termination (the Rust
loop advances a cursor; every recursive call here strictly shrinks the
list, so fuel = input length suffices). -/
def findJiraAux : Nat → Option Char → List Char → Option (List Char)
  | 0, _, _ => none
  | _ + 1, _, [] => none
  | fuel + 1, prev, c :: rest =>
    if c.isUpper then
      if (match prev with | some p => p.isAlphanum || p = '-' | none => false) then
        findJiraAux fuel (some c) rest
      else
        let us := c :: rest.takeWhile Char.isUpper
        let rest1 := rest.dropWhile Char.isUpper
        if us.length ≥ 2 then
          match rest1 with
          | '-' :: rest2 =>
            let ds := rest2.takeWhile Char.isDigit
            let rest3 := rest2.dropWhile Char.isDigit
            if !ds.isEmpty && (match rest3 with | [] => true | d :: _ => !d.isAlphanum) then
              some (us ++ '-' :: ds)
            else if ds.isEmpty then findJiraAux fuel (some '-') rest2
            else findJiraAux fuel (some (ds.getLastD '0')) rest3
          | _ => findJiraAux fuel (some (us.getLastD 'A')) rest1
        else findJiraAux fuel (some (us.getLastD 'A')) rest1
    else findJiraAux fuel (some c) rest

/-- Translation of `find_jira_ref`: first JIRA-style reference in the text,
with word-boundary checks on both sides. -/
def find_jira_ref (text : List Char) : Option String :=
  (findJiraAux text.length none text).map String.mk

/-- The keyword loop of step 3 of `extract_ticket_ref`: `fixes #N`,
`fixed #N`, `closes #N`, `closed #N`, searched case-insensitively in
`lower` with the digits extracted from the original line. -/
def fixesScan (lower orig : List Char) : List (List Char) → Option String
  | [] => none
  | kw :: kws =>
    match findSub kw lower with
    | some pos =>
      match extract_digits (orig.drop (pos + kw.length)) with
      | some num => some (String.mk ('#' :: num))
      | none => fixesScan lower orig kws
    | none => fixesScan lower orig kws

/-- Steps 1-4 of `extract_ticket_ref` applied to an (already extracted)
first line. -/
def ticketOfLine (first_line : List Char) : Option String :=
  let bracket :=
    match findSub ['['] first_line with
    | none => none
    | some start =>
      let after := first_line.drop (start + 1)
      match findSub [']'] after with
      | none => none
      | some e =>
        let inner := after.take e
        if is_jira_ref inner then some (String.mk inner) else none
  match bracket with
  | some t => some t
  | none =>
    match find_jira_ref first_line with
    | some t => some t
    | none =>
      let lower := lowerChars first_line
      match fixesScan lower first_line
          ["fixes #".data, "fixed #".data, "closes #".data, "closed #".data] with
      | some t => some t
      | none =>
        match findSub ['#'] first_line with
        | some pos =>
          match extract_digits (first_line.drop (pos + 1)) with
          | some num => some (String.mk ('#' :: num))
          | none => none
        | none => none

/-- Translation of `extract_ticket_ref` from `common.rs`: extract a ticket
reference from the first line of a commit message, in priority order
bracketed JIRA > unbracketed JIRA > fixes/closes patterns > bare issue. -/
def extract_ticket_ref (message : String) : Option String :=
  ticketOfLine (firstLineChars message.data)

/-! ### Commit stream (`CommitIter::next` from `common.rs`) -/

/-- The fields of a walked commit relevant to the time-bound filtering. -/
structure WalkedCommit where
  oid : String
  timestamp : Int
deriving DecidableEq, Repr

/-- The skip condition of `CommitIter::next`: the commit is strictly newer
than the `until` bound. -/
def tooNew (untilTs : Option Int) (c : WalkedCommit) : Bool :=
  match untilTs with
  | some u => decide (c.timestamp > u)
  | none => false

/-- The stop condition of `CommitIter::next`: the commit is strictly older
than the `since` bound. -/
def tooOld (sinceTs : Option Int) (c : WalkedCommit) : Bool :=
  match sinceTs with
  | some s => decide (c.timestamp < s)
  | none => false

/-- Translation of the loop in `CommitIter::next` from `common.rs`, applied
to the whole underlying revwalk sequence: commits strictly newer than
`untilTs` are skipped and iteration continues; the first commit strictly
older than `sinceTs` sets the `done` flag, which here terminates the
stream; every other commit is yielded in order. -/
def commitStream (sinceTs untilTs : Option Int) : List WalkedCommit → List WalkedCommit
  | [] => []
  | c :: rest =>
    if tooNew untilTs c then commitStream sinceTs untilTs rest
    else if tooOld sinceTs c then []
    else c :: commitStream sinceTs untilTs rest

/-! ### Result cache (`cache_key`, `read_cache` from `cache.rs`) -/

/-- Translation of the bound rendering in `cache_key`: an absent bound is
the token `all`, a present bound is its epoch integer. -/
def bound_label (b : Option Int) : String :=
  match b with
  | some ts => toString ts
  | none => "all"

/-- String comparison used for `Vec<&String>::sort`: lexicographic on the
character sequences (for UTF-8 the byte order that Rust sorts by equals
the code-point order compared here).  Stated over `List Char` so that the
comparison evaluates by kernel reduction. -/
def strLE (a b : String) : Prop := a.data < b.data ∨ a.data = b.data

instance : DecidableRel strLE :=
  fun a b => inferInstanceAs (Decidable (a.data < b.data ∨ a.data = b.data))

instance : IsTotal String strLE :=
  ⟨fun a b => by
    rcases lt_trichotomy a.data b.data with h | h | h
    · exact Or.inl (Or.inl h)
    · exact Or.inl (Or.inr h)
    · exact Or.inr (Or.inl h)⟩

instance : IsTrans String strLE :=
  ⟨fun a b c hab hbc => by
    rcases hab with h1 | h1 <;> rcases hbc with h2 | h2
    · exact Or.inl (lt_trans h1 h2)
    · exact Or.inl (h2 ▸ h1)
    · exact Or.inl (h1 ▸ h2)
    · exact Or.inr (h1.trans h2)⟩

instance : IsAntisymm String strLE :=
  ⟨fun a b hab hba => by
    apply String.ext
    rcases hab with h1 | h1
    · rcases hba with h2 | h2
      · exact absurd h1 (lt_asymm h2)
      · exact h2.symm
    · exact h1⟩

/-- Translation of `cache_key` from `cache.rs`.  The std `DefaultHasher`
is an external collaborator (not part of this repository's sources), so
the hash over the sorted file list is taken as a parameter; everything
else is literal.  Hex rendering of the hash models `{:x}`. -/
def cache_key (hash : List String → Nat) (subcommand : String)
    (sinceTs untilTs : Option Int) (files : Option (List String)) : String :=
  match files with
  | some f =>
    let sorted := f.insertionSort strLE
    subcommand ++ "-" ++ String.mk (Nat.toDigits 16 (hash sorted)) ++ "-" ++
      bound_label sinceTs ++ "-" ++ bound_label untilTs ++ ".json"
  | none => subcommand ++ "-" ++ bound_label sinceTs ++ "-" ++ bound_label untilTs ++ ".json"

/-- A parsed cache entry, as far as `read_cache` inspects it: the
`head_commit` field if present and a string, and the re-serialized
`result` field if present (serde parsing / pretty-printing themselves are
external collaborators). -/
structure ParsedEntry where
  head_commit : Option String
  result : Option String
deriving DecidableEq, Repr

/-- Translation of `read_cache` from `cache.rs`.  The on-disk state is
`none` when the cache file is missing or unreadable, `some none` when the
file exists but is not parsable JSON, and `some (some entry)` otherwise;
`currentHead` is `none` when `head_oid` fails.  Every failure returns
`none` (a cache miss), mirroring the `?` chain on `Option`. -/
def read_cache (file : Option (Option ParsedEntry)) (currentHead : Option String) :
    Option String :=
  match file with
  | none => none
  | some none => none
  | some (some entry) =>
    match entry.head_commit with
    | none => none
    | some cached =>
      match currentHead with
      | none => none
      | some current => if cached = current then entry.result else none

/-! ### Bus factor (`bus_factor` from `authors.rs`) -/

/-- The fields of a per-directory author row relevant to the bus factor. -/
structure AuthorStats where
  name : String
  email : String
  commits : Nat
deriving DecidableEq, Repr

/-- The accumulation loop of `bus_factor`: returns `i + 1` for the first
prefix whose accumulated commits strictly exceed the threshold, and the
full length when the loop completes.  The `f64` threshold comparison
`accumulated > total * 0.5` is modelled in `ℚ`. -/
def busGo (threshold : ℚ) (accumulated : ℚ) (i : Nat) : List AuthorStats → Nat
  | [] => i
  | a :: rest =>
    let accumulated := accumulated + a.commits
    if accumulated > threshold then i + 1 else busGo threshold accumulated (i + 1) rest

/-- Nat-valued reference form of the `bus_factor` loop: the `f64`
comparison `accumulated > total * 0.5` holds exactly when
`2 * accumulated > total` (both sides are integers well inside the exact
range of `f64`). -/
def busGoN (total acc i : Nat) : List AuthorStats → Nat
  | [] => i
  | a :: rest =>
    if 2 * (acc + a.commits) > total then i + 1
    else busGoN total (acc + a.commits) (i + 1) rest

/-- Translation of `bus_factor` from `authors.rs`: minimum number of
authors (in list order) whose commits exceed 50% of `total_commits`. -/
def bus_factor (authors : List AuthorStats) (total_commits : Nat) : Nat :=
  if total_commits = 0 ∨ authors.isEmpty then 0
  else busGo ((total_commits : ℚ) * (1 / 2)) 0 0 authors

/-! ### Pattern/signal detectors (`run_impl` from `patterns.rs`)

`run_impl` first materializes, from the commit walk, one `CommitInfo` per
commit (short id, formatted date, first message line, classification,
timestamp, touched files, per-file churn).  That enrichment loop is
repository access (an external collaborator); the detectors below take the
materialized newest-first `commits_info` list as input. -/

/-- The per-commit enriched record built by the materialization loop of
`run_impl` (`file_churn` is an association list standing for the Rust
`HashMap<String, usize>`). -/
structure CommitInfo where
  oid : String
  date : String
  message : String
  commit_type : String
  timestamp : Int
  files_touched : List String
  file_churn : List (String × Nat)
deriving DecidableEq, Repr

/-- Look up a key in an association list, with default. -/
def lookupD (m : List (String × Nat)) (k : String) : Nat :=
  match m with
  | [] => 0
  | (k', v) :: rest => if k' = k then v else lookupD rest k

/-- Update a key in an association list in place, inserting
`f d` at the end when absent; models `HashMap::entry().or_insert(d)`
updated by `f`, with first-insertion iteration order. -/
def updateA {β : Type} (m : List (String × β)) (k : String) (f : β → β) (d : β) :
    List (String × β) :=
  match m with
  | [] => [(k, f d)]
  | (k', v) :: rest => if k' = k then (k', f v) :: rest else (k', v) :: updateA rest k f d

/-- Signal kind (`signals.rs`). -/
inductive SignalKind
  | FixAfterFeat
  | FixAfterRefactor
deriving DecidableEq, Repr

/-- Signal record (`signals.rs`); severity is the Rust `f64`, modelled
in `ℚ`. -/
structure Signal where
  kind : SignalKind
  severity : ℚ
  message : String
  commits : List String
  files : List String
deriving DecidableEq, Repr

/-- The `FixAfterFeat` output record (`patterns.rs`). -/
structure FixAfterFeat where
  feat_commit : String
  feat_date : String
  feat_message : String
  fix_commit : String
  fix_date : String
  fix_message : String
  gap_commits : Nat
  shared_files : List String
deriving DecidableEq, Repr

/-- The `ChainCommit` output record (`patterns.rs`). -/
structure ChainCommit where
  commit : String
  date : String
  message : String
  commit_type : String
deriving DecidableEq, Repr

/-- Projection of an enriched commit to its `ChainCommit` record. -/
def toChain (ci : CommitInfo) : ChainCommit :=
  ⟨ci.oid, ci.date, ci.message, ci.commit_type⟩

/-- The `MultiEditChain` output record (`patterns.rs`); `type_distribution` is
an association list standing for the Rust `HashMap`. -/
structure MultiEditChain where
  path : String
  edit_count : Nat
  total_churn : Nat
  type_distribution : List (String × Nat)
  commits : List ChainCommit
deriving DecidableEq, Repr

/-- The `DirectoryChain` output record (`patterns.rs`). -/
structure DirectoryChain where
  path : String
  total_edit_count : Nat
  total_churn : Nat
  files : List String
deriving DecidableEq, Repr

/-- The `TemporalCluster` output record (`patterns.rs`).  The source stores
the members projected to `ChainCommit` and the start/end timestamps
formatted as strings; here the members keep their full `CommitInfo` (the
projection drops the timestamp, which the cluster invariants are about)
and the start/end fields hold the raw timestamps (date formatting is an
external collaborator). -/
structure TemporalCluster where
  cluster_type : String
  start_ts : Int
  end_ts : Int
  commit_count : Nat
  commits : List CommitInfo
  affected_files : List String
deriving DecidableEq, Repr

/-- The `PatternsOutput` record (`patterns.rs`). -/
structure PatternsOutput where
  fix_after_feat : List FixAfterFeat
  multi_edit_chains : List MultiEditChain
  directory_chains : List DirectoryChain
  temporal_clusters : List TemporalCluster
  total_commits_analyzed : Nat
  signals : List Signal
deriving DecidableEq, Repr

/-- The shared-file computation of the fix-after-feat detector: the files
of the older commit that the fix also touched (the Rust code filters
`older.files_touched` through a hash set of the fix's files). -/
def sharedFiles (fix older : CommitInfo) : List String :=
  older.files_touched.filter (fun f => decide (f ∈ fix.files_touched))

/-- The inner `for gap in 1..=5` scan of the fix-after-feat detector:
find the nearest older feat/refactor commit within 5 positions sharing at
least one file; the scan breaks off entirely when the index runs past the
end of the list. -/
def scanGaps (commits : List CommitInfo) (ci : CommitInfo) (i : Nat) :
    List Nat → Option (Nat × CommitInfo × List String)
  | [] => none
  | d :: ds =>
    match commits[i + d]? with
    | none => none
    | some older =>
      if older.commit_type = "feat" ∨ older.commit_type = "refactor" then
        let shared := sharedFiles ci older
        if shared.isEmpty then scanGaps commits ci i ds
        else some (d, older, shared)
      else scanGaps commits ci i ds

/-- Build the signal pushed for a fix linked to an older feat/refactor
commit at positional distance `d`, with `severity = 1/(d+1) *
min(shared,5)/5` as in `patterns.rs`. -/
def mkSignal (ci older : CommitInfo) (d : Nat) (shared : List String) : Signal :=
  { kind := if older.commit_type = "feat" then .FixAfterFeat else .FixAfterRefactor
    severity := 1 / ((d : ℚ) + 1) * ((min shared.length 5 : ℕ) / 5 : ℚ)
    message := "Fix " ++ ci.oid ++ " likely caused by " ++ older.commit_type ++ " " ++
      older.oid ++ " (" ++ toString shared.length ++ " shared files, " ++
      toString (d - 1) ++ " commits apart)"
    commits := [older.oid, ci.oid]
    files := shared }

/-- The signals produced by the fix-after-feat/refactor loop of `run_impl`
(the source pushes to `signals` inside the same loop that fills
`fix_after_feat`; each iteration contributes at most one element to each
list, so the two lists are computed here by separate `filterMap`s over the
same scan). -/
def fixSignals (commits : List CommitInfo) : List Signal :=
  commits.enum.filterMap (fun p =>
    if p.2.commit_type = "fix" then
      (scanGaps commits p.2 p.1 [1, 2, 3, 4, 5]).map
        (fun r => mkSignal p.2 r.2.1 r.1 r.2.2)
    else none)

/-- The `fix_after_feat` list of `run_impl` before truncation; only
`feat`-origin matches are recorded (refactor-origin matches are signals
only). -/
def fixAfterFeatList (commits : List CommitInfo) : List FixAfterFeat :=
  commits.enum.filterMap (fun p =>
    if p.2.commit_type = "fix" then
      match scanGaps commits p.2 p.1 [1, 2, 3, 4, 5] with
      | some (d, older, shared) =>
        if older.commit_type = "feat" then
          some { feat_commit := older.oid, feat_date := older.date,
                 feat_message := older.message, fix_commit := p.2.oid,
                 fix_date := p.2.date, fix_message := p.2.message,
                 gap_commits := d - 1,
                 shared_files := shared }
        else none
      | none => none
    else none)

/-- Generic association-list lookup with default; models
`HashMap::get().copied().unwrap_or(d)` / `remove().unwrap_or_default()`. -/
def lookupA {β : Type} (m : List (String × β)) (k : String) (d : β) : β :=
  match m with
  | [] => d
  | (k', v) :: rest => if k' = k then v else lookupA rest k d

/-- The three per-file maps of the multi-edit chain detector
(`file_history`, `file_total_churn`, `file_type_dist`). -/
structure FileMaps where
  hist : List (String × List ChainCommit)
  churn : List (String × Nat)
  dist : List (String × List (String × Nat))

/-- The accumulation loop over commits and touched files that fills the
per-file maps in `run_impl`. -/
def buildFileMaps (commits : List CommitInfo) : FileMaps :=
  commits.foldl (fun maps ci =>
    ci.files_touched.foldl (fun maps f =>
      { hist := updateA maps.hist f (· ++ [toChain ci]) []
        churn := updateA maps.churn f (· + lookupD ci.file_churn f) 0
        dist := updateA maps.dist f (fun dd => updateA dd ci.commit_type (· + 1) 0) [] })
      maps)
    ⟨[], [], []⟩

/-- Descending-by-edit-count comparison used to sort multi-edit chains. -/
def editGE (a b : MultiEditChain) : Prop := b.edit_count ≤ a.edit_count

instance : DecidableRel editGE := fun a b => inferInstanceAs (Decidable (b.edit_count ≤ a.edit_count))

/-- The multi-edit chain detector of `run_impl`: files touched ≥ 3 times
with > 100 total churn, sorted by edit count descending (before the cap). -/
def multiEditChainsOf (commits : List CommitInfo) : List MultiEditChain :=
  let maps := buildFileMaps commits
  let chains := (maps.hist.filter
      (fun pe => decide (pe.2.length ≥ 3) && decide (lookupD maps.churn pe.1 > 100))).map
    (fun pe =>
      { path := pe.1
        edit_count := pe.2.length
        total_churn := lookupD maps.churn pe.1
        type_distribution := lookupA maps.dist pe.1 []
        commits := pe.2 })
  chains.insertionSort editGE

/-- The three per-directory maps of the directory chain detector
(`dir_edit_count`, `dir_churn`, `dir_files`). -/
structure DirMaps where
  edits : List (String × Nat)
  churn : List (String × Nat)
  files : List (String × List String)

/-- Per-commit state of the directory accumulation: the set of directories
already counted for this commit (`seen_dirs`) plus the running maps. -/
structure DirStep where
  seen : List String
  maps : DirMaps

/-- The accumulation loop over commits and touched files that fills the
per-directory maps in `run_impl`; a commit contributes at most one edit
per directory. -/
def buildDirMaps (commits : List CommitInfo) : DirMaps :=
  commits.foldl (fun maps ci =>
    (ci.files_touched.foldl (fun st f =>
      let dir := dir_at_depth f 1
      let st :=
        if st.seen.contains dir then st
        else { seen := dir :: st.seen
               maps := { st.maps with edits := updateA st.maps.edits dir (· + 1) 0 } }
      { st with maps :=
          { st.maps with
            churn := updateA st.maps.churn dir (· + lookupD ci.file_churn f) 0
            files := updateA st.maps.files dir
              (fun fl => if fl.contains f then fl else fl ++ [f]) [] } })
      (⟨[], maps⟩ : DirStep)).maps)
    ⟨[], [], []⟩

/-- Descending-by-churn comparison used to sort directory chains. -/
def churnGE (a b : DirectoryChain) : Prop := b.total_churn ≤ a.total_churn

instance : DecidableRel churnGE := fun a b => inferInstanceAs (Decidable (b.total_churn ≤ a.total_churn))

/-- The directory chain detector of `run_impl`: directories with ≥ 3
edits, files sorted, sorted by total churn descending (before the cap). -/
def directoryChainsOf (commits : List CommitInfo) : List DirectoryChain :=
  let maps := buildDirMaps commits
  let chains := (maps.edits.filter (fun pe => decide (pe.2 ≥ 3))).map
    (fun pe =>
      { path := pe.1
        total_edit_count := pe.2
        total_churn := lookupD maps.churn pe.1
        files := (lookupA maps.files pe.1 []).insertionSort strLE })
  chains.insertionSort churnGE

/-- Ascending-timestamp comparison used to sort each label group. -/
def tsLE (a b : CommitInfo) : Prop := a.timestamp ≤ b.timestamp

instance : DecidableRel tsLE := fun a b => inferInstanceAs (Decidable (a.timestamp ≤ b.timestamp))

instance : IsTotal CommitInfo tsLE := ⟨fun a b => Int.le_total a.timestamp b.timestamp⟩

instance : IsTrans CommitInfo tsLE := ⟨fun _ _ _ hab hbc => le_trans hab hbc⟩

/-- The inner-while condition of the temporal clustering: a commit is in
the run started at `c` while its timestamp is within 3600 seconds of
`c`'s. -/
def withinWindow (c x : CommitInfo) : Bool := decide (x.timestamp - c.timestamp ≤ 3600)

/-- The greedy run partition of the temporal clustering (`i`/`j` loop of
`run_impl`): each run is a maximal block starting at the current commit
and extending while `withinWindow` holds; scanning resumes strictly after
the run.  Fuel (= list length at the top call) makes the recursion
structural. -/
def greedyRunsAux : Nat → List CommitInfo → List (List CommitInfo)
  | 0, _ => []
  | _ + 1, [] => []
  | fuel + 1, c :: rest =>
    (c :: rest.takeWhile (withinWindow c)) :: greedyRunsAux fuel (rest.dropWhile (withinWindow c))

/-- Greedy non-overlapping partition of a (sorted) label group into runs. -/
def greedyRuns (l : List CommitInfo) : List (List CommitInfo) := greedyRunsAux l.length l

/-- Build the cluster record for a qualifying run (start/end timestamps of
the first/last member; affected files sorted and deduplicated as in the
source's `sort` + `dedup`). -/
def mkCluster (ctype : String) (r : List CommitInfo) : TemporalCluster :=
  { cluster_type := ctype
    start_ts := (r.head?.map (·.timestamp)).getD 0
    end_ts := (r.getLast?.map (·.timestamp)).getD 0
    commit_count := r.length
    commits := r
    affected_files := ((r.flatMap (·.files_touched)).insertionSort strLE).destutter (· ≠ ·) }

/-- Clusters of one label group: sort ascending by timestamp, partition
greedily, keep runs with ≥ 3 members. -/
def clustersForGroup (ctype : String) (g : List CommitInfo) : List TemporalCluster :=
  ((greedyRuns (g.insertionSort tsLE)).filter (fun r => decide (r.length ≥ 3))).map
    (mkCluster ctype)

/-- All temporal clusters of `run_impl` (before the final sort): group the
commits by classification label (`by_type`), cluster each group.  The
Rust `HashMap` group iteration order is unspecified; the deduplicated
label list gives one deterministic order, and each group, as in the
source, holds its commits in input order. -/
def temporalClustersOf (commits : List CommitInfo) : List TemporalCluster :=
  ((commits.map (·.commit_type)).dedup).flatMap
    (fun lb => clustersForGroup lb (commits.filter (fun c => decide (c.commit_type = lb))))

/-- Descending-by-size comparison used to sort temporal clusters. -/
def countGE (a b : TemporalCluster) : Prop := b.commit_count ≤ a.commit_count

instance : DecidableRel countGE := fun a b => inferInstanceAs (Decidable (b.commit_count ≤ a.commit_count))

/-- Translation of the detector part of `run_impl` from `patterns.rs`,
taking the materialized newest-first enriched commit list.  `limit`
truncates `fix_after_feat` and `temporal_clusters` directly; the two
chain lists are capped at 10 unless a smaller limit is supplied; the
signals list and the total are never truncated. -/
def run_impl (commits_info : List CommitInfo) (limit : Option Nat) : PatternsOutput :=
  let total := commits_info.length
  let fafAll := fixAfterFeatList commits_info
  let signals := fixSignals commits_info
  let faf := match limit with | some l => fafAll.take l | none => fafAll
  let chain_cap := match limit with | some l => if l < 10 then l else 10 | none => 10
  let mec := (multiEditChainsOf commits_info).take chain_cap
  let dir_chain_cap := match limit with | some l => if l < 10 then l else 10 | none => 10
  let dc := (directoryChainsOf commits_info).take dir_chain_cap
  let tcSorted := (temporalClustersOf commits_info).insertionSort countGE
  let tc := match limit with | some l => tcSorted.take l | none => tcSorted
  { fix_after_feat := faf
    multi_edit_chains := mec
    directory_chains := dc
    temporal_clusters := tc
    total_commits_analyzed := total
    signals := signals }

/-! ### Size-convergence pair detector.

The detector itself is not among the sources under `src/`; the spec
(§4.3 "Size-convergence pairs") is the authority for its behaviour, and
the definitions below are modelled from its words. -/

/-- A file of the current snapshot with its byte size. -/
structure FileEntry where
  path : String
  size : Nat
deriving DecidableEq, Repr

/-- A qualifying convergence pair: both sizes, their absolute difference,
and the ratio (smaller/larger). -/
structure ConvergencePair where
  path_a : String
  path_b : String
  size_a : Nat
  size_b : Nat
  size_diff : Nat
  ratioQ : ℚ
deriving DecidableEq, Repr

/-- Ascending-size comparison for the snapshot sort. -/
def sizeLE (a b : FileEntry) : Prop := a.size ≤ b.size

instance : DecidableRel sizeLE := fun a b => inferInstanceAs (Decidable (a.size ≤ b.size))

/-- Size ratio smaller/larger of two files, in `ℚ`. -/
def pairRatioQ (a b : FileEntry) : ℚ := ((min a.size b.size : ℕ) : ℚ) / ((max a.size b.size : ℕ) : ℚ)

/-- Modelled from the spec: the pair record for two size-convergent files. -/
def mkPair (a b : FileEntry) : ConvergencePair :=
  { path_a := a.path
    path_b := b.path
    size_a := a.size
    size_b := b.size
    size_diff := max a.size b.size - min a.size b.size
    ratioQ := pairRatioQ a b }

/-- Modelled from the spec: for one file, scan forward through the larger
files while the size ratio stays ≥ 0.90; the scan stops at the first file
that breaks the ratio. -/
def scanPairs (a : FileEntry) : List FileEntry → List ConvergencePair
  | [] => []
  | b :: rest =>
    if (9 : ℚ) / 10 ≤ pairRatioQ a b then mkPair a b :: scanPairs a rest else []

/-- Modelled from the spec: all qualifying pairs of the size-sorted list. -/
def allPairs : List FileEntry → List ConvergencePair
  | [] => []
  | a :: rest => scanPairs a rest ++ allPairs rest

/-- Descending-ratio comparison for the final pair sort. -/
def ratioGE (p q : ConvergencePair) : Prop := q.ratioQ ≤ p.ratioQ

instance : DecidableRel ratioGE := fun p q => inferInstanceAs (Decidable (q.ratioQ ≤ p.ratioQ))

/-- Modelled from the spec: the size-convergence pair detector.  Restrict
to snapshot files with size at least `minSize`, sort ascending by size,
collect ratio-qualifying pairs, sort them by ratio descending, and cap
the list at the smaller of the two configured limits, with a flag
indicating whether truncation occurred. -/
def convergence_pairs (files : List FileEntry) (minSize pairLimit generalLimit : Nat) :
    List ConvergencePair × Bool :=
  let eligible := files.filter (fun f => decide (minSize ≤ f.size))
  let sorted := eligible.insertionSort sizeLE
  let pairs := allPairs sorted
  let sortedPairs := pairs.insertionSort ratioGE
  let cap := min pairLimit generalLimit
  (sortedPairs.take cap, decide (cap < sortedPairs.length))

/-! ### Remaining helper definitions and concrete witness inputs -/

/-- The commits yielded by the filtered walk are exactly those inside the
inclusive `since`/`until` bounds. -/
def inBounds (sinceTs untilTs : Option Int) (c : WalkedCommit) : Bool :=
  (match sinceTs with | some s => decide (s ≤ c.timestamp) | none => true) &&
  (match untilTs with | some u => decide (c.timestamp ≤ u) | none => true)

/-- Concrete enriched feat commit touching `a.rs`. -/
def featC : CommitInfo :=
  { oid := "feat111"
    date := "2024-01-01"
    message := "feat: add parser"
    commit_type := "feat"
    timestamp := 100
    files_touched := ["a.rs"]
    file_churn := [("a.rs", 10)] }

/-- Concrete enriched fix commit touching the same file, adjacent to the
feat commit in the newest-first list. -/
def fixC : CommitInfo :=
  { oid := "fix2222"
    date := "2024-01-02"
    message := "fix: parser bug"
    commit_type := "fix"
    timestamp := 200
    files_touched := ["a.rs"]
    file_churn := [("a.rs", 2)] }

/-- Two-commit newest-first history: a fix directly followed (in older
direction) by the feat it repairs; zero commits lie strictly between. -/
def linkInput : List CommitInfo := [fixC, featC]

/-- Concrete docs commit at timestamp 0. -/
def docsC0 : CommitInfo :=
  { oid := "docsa00", date := "2024-02-01", message := "docs: a",
    commit_type := "docs", timestamp := 0, files_touched := ["d.rs"], file_churn := [] }

/-- Concrete docs commit at timestamp 100. -/
def docsC1 : CommitInfo :=
  { oid := "docsb00", date := "2024-02-01", message := "docs: b",
    commit_type := "docs", timestamp := 100, files_touched := ["d.rs"], file_churn := [] }

/-- Concrete docs commit at timestamp 200. -/
def docsC2 : CommitInfo :=
  { oid := "docsc00", date := "2024-02-01", message := "docs: c",
    commit_type := "docs", timestamp := 200, files_touched := ["d.rs"], file_churn := [] }

/-- Newest-first history of three docs commits within one hour. -/
def docsInput : List CommitInfo := [docsC2, docsC1, docsC0]

/-- The temporal cluster that `run_impl` finds in `docsInput`. -/
def docsCluster : TemporalCluster :=
  { cluster_type := "docs"
    start_ts := 0
    end_ts := 200
    commit_count := 3
    commits := [docsC0, docsC1, docsC2]
    affected_files := ["d.rs"] }

/-- Concrete snapshot files of near-identical size. -/
def fileA : FileEntry := ⟨"a.rs", 95⟩

/-- Concrete snapshot file slightly larger than `fileA`. -/
def fileB : FileEntry := ⟨"b.rs", 100⟩

/-- Concrete snapshot for the convergence-pair witness. -/
def convFiles : List FileEntry := [fileA, fileB]

/-! ## Theorems -/

/-- C6: for every message and `parent_count ≥ 2`, classification returns
"merge" regardless of message content; and with one parent the message
`Revert "feat: x"` classifies as "revert", not "feat": merge and revert
rules take priority over conventional-prefix matching. -/
theorem classify_merge_revert_priority (message : String) (parent_count : Nat)
    (h : 2 ≤ parent_count) :
    classify_commit_with_parents message parent_count = "merge" ∧
    classify_commit_with_parents "Revert \"feat: x\"" 1 = "revert" := by
  refine ⟨?_, by decide⟩
  unfold classify_commit_with_parents
  exact if_pos h

/-- Witness for `classify_merge_revert_priority` at a message that would
otherwise classify as "feat". -/
theorem classify_merge_revert_priority_witness :
    classify_commit_with_parents "feat: merged branch" 2 = "merge" ∧
    classify_commit_with_parents "Revert \"feat: x\"" 1 = "revert" :=
  classify_merge_revert_priority "feat: merged branch" 2 (by decide)

/-- C2: `read_cache` returns a payload only when the stored head equals
the current head at read time, and returns `none` — never a propagated
error — when the cache file is missing, the stored JSON is unparsable, or
the stored head differs from the current head. -/
theorem read_cache_validity (file : Option (Option ParsedEntry)) (currentHead : Option String) :
    (∀ p, read_cache file currentHead = some p →
      ∃ entry head, file = some (some entry) ∧ entry.head_commit = some head ∧
        currentHead = some head ∧ entry.result = some p) ∧
    (file = none → read_cache file currentHead = none) ∧
    (file = some none → read_cache file currentHead = none) ∧
    (∀ entry cached current, file = some (some entry) →
      entry.head_commit = some cached → currentHead = some current →
      cached ≠ current → read_cache file currentHead = none) := by
  refine ⟨?_, ?_, ?_, ?_⟩
  · intro p hp
    match file with
    | none => simp [read_cache] at hp
    | some none => simp [read_cache] at hp
    | some (some entry) =>
      match hhc : entry.head_commit with
      | none => simp [read_cache, hhc] at hp
      | some cached =>
        match hch : currentHead with
        | none => simp [read_cache, hhc, hch] at hp
        | some current =>
          simp only [read_cache, hhc, hch] at hp
          by_cases heq : cached = current
          · exact ⟨entry, current, rfl, by rw [hhc, heq], rfl, by rwa [if_pos heq] at hp⟩
          · rw [if_neg heq] at hp; exact absurd hp (by simp)
  · rintro rfl; rfl
  · rintro rfl; rfl
  · rintro entry cached current rfl hhc rfl hne
    simp [read_cache, hhc, hne]

/-- Witness for `read_cache_validity`: a stored head differing from the
current head yields a miss. -/
theorem read_cache_validity_witness :
    read_cache (some (some ⟨some "aaa", some "payload"⟩)) (some "bbb") = none :=
  (read_cache_validity (some (some ⟨some "aaa", some "payload"⟩)) (some "bbb")).2.2.2
    ⟨some "aaa", some "payload"⟩ "aaa" "bbb" rfl rfl rfl (by decide)

/-- Unfolding equation for `commitStream` on a cons cell. -/
theorem commitStream_cons (sinceTs untilTs : Option Int) (c : WalkedCommit)
    (rest : List WalkedCommit) :
    commitStream sinceTs untilTs (c :: rest) =
      if tooNew untilTs c then commitStream sinceTs untilTs rest
      else if tooOld sinceTs c then []
      else c :: commitStream sinceTs untilTs rest := rfl

/-- C5: on a time-descending (non-increasing) underlying commit sequence,
the stream skips commits strictly newer than `until` and keeps iterating,
terminates permanently at the first commit strictly older than `since`,
and yields every other commit in order — hence it yields exactly the
commits with `since ≤ timestamp ≤ until`, newest-first. -/
theorem commitStream_bounds (sinceTs untilTs : Option Int) (l : List WalkedCommit)
    (hsorted : l.Pairwise (fun a b => b.timestamp ≤ a.timestamp)) :
    commitStream sinceTs untilTs l = l.filter (inBounds sinceTs untilTs) ∧
    (∀ c rest u, untilTs = some u → u < c.timestamp →
      commitStream sinceTs untilTs (c :: rest) = commitStream sinceTs untilTs rest) ∧
    (∀ c rest s, sinceTs = some s → c.timestamp < s →
      (∀ u, untilTs = some u → c.timestamp ≤ u) →
      commitStream sinceTs untilTs (c :: rest) = []) := by
  refine ⟨?_, ?_, ?_⟩
  · induction l with
    | nil => rfl
    | cons c rest ih =>
      rw [List.pairwise_cons] at hsorted
      obtain ⟨hall, hrest⟩ := hsorted
      specialize ih hrest
      by_cases hu : tooNew untilTs c = true
      · have hb : inBounds sinceTs untilTs c = false := by
          match untilTs with
          | none => simp [tooNew] at hu
          | some u =>
            simp only [tooNew, decide_eq_true_eq] at hu
            simp [inBounds, not_le.mpr hu]
        rw [commitStream_cons, if_pos hu, List.filter_cons, hb, ih]
        simp
      · by_cases hs : tooOld sinceTs c = true
        · match sinceTs with
          | none => simp [tooOld] at hs
          | some s =>
            simp only [tooOld, decide_eq_true_eq] at hs
            have hb : inBounds (some s) untilTs c = false := by
              simp [inBounds, not_le.mpr hs]
            rw [commitStream_cons, if_neg hu, if_pos (by simp [tooOld, hs]),
              List.filter_cons, hb]
            have hnil : rest.filter (inBounds (some s) untilTs) = [] := by
              rw [List.filter_eq_nil_iff]
              intro x hx
              have hxo : x.timestamp ≤ c.timestamp := hall x hx
              simp [inBounds, not_le.mpr (lt_of_le_of_lt hxo hs)]
            simp [hnil]
        · have hb : inBounds sinceTs untilTs c = true := by
            match sinceTs, untilTs with
            | none, none => rfl
            | none, some u =>
              simp only [tooNew, decide_eq_true_eq] at hu
              simp [inBounds, not_lt.mp hu]
            | some s, none =>
              simp only [tooOld, decide_eq_true_eq] at hs
              simp [inBounds, not_lt.mp hs]
            | some s, some u =>
              simp only [tooNew, decide_eq_true_eq] at hu
              simp only [tooOld, decide_eq_true_eq] at hs
              simp [inBounds, not_lt.mp hu, not_lt.mp hs]
          rw [commitStream_cons, if_neg hu, if_neg hs, List.filter_cons, hb, ih]
          simp
  · rintro c rest u rfl hlt
    rw [commitStream_cons, if_pos (by simp [tooNew, hlt])]
  · rintro c rest s rfl hlt hun
    have hu : ¬ tooNew untilTs c = true := by
      match untilTs with
      | none => simp [tooNew]
      | some u => simpa [tooNew] using hun u rfl
    rw [commitStream_cons, if_neg hu, if_pos (by simp [tooOld, hlt])]

/-- Witness for `commitStream_bounds` on a concrete three-commit walk. -/
theorem commitStream_bounds_witness :
    commitStream (some 2) (some 7) [⟨"aaa", 10⟩, ⟨"bbb", 5⟩, ⟨"ccc", 1⟩] =
      List.filter (inBounds (some 2) (some 7)) [⟨"aaa", 10⟩, ⟨"bbb", 5⟩, ⟨"ccc", 1⟩] ∧
    commitStream (some 2) (some 7) [⟨"aaa", 10⟩, ⟨"bbb", 5⟩, ⟨"ccc", 1⟩] = [⟨"bbb", 5⟩] :=
  ⟨(commitStream_bounds (some 2) (some 7) [⟨"aaa", 10⟩, ⟨"bbb", 5⟩, ⟨"ccc", 1⟩]
      (by decide)).1, by decide⟩

/-- Sorting a list of strings is invariant under permutation of the
input: the sorted outputs are permutations of each other and both sorted,
hence equal. -/
theorem insertionSort_perm_eq (f f' : List String) (h : f.Perm f') :
    f.insertionSort strLE = f'.insertionSort strLE :=
  List.eq_of_perm_of_sorted
    ((List.perm_insertionSort strLE f).trans (h.trans (List.perm_insertionSort strLE f').symm))
    (List.sorted_insertionSort strLE f) (List.sorted_insertionSort strLE f')

/-- C7: the cache key is a pure function of command name, bounds and extra
parameters; absent bounds render as the token "all" and present bounds as
their integer value, and permuting a list-valued extra parameter never
changes the key. -/
theorem cache_key_deterministic :
    (∀ (hash : List String → Nat) (subcommand : String) (sinceTs untilTs : Option Int)
        (f f' : List String), f.Perm f' →
      cache_key hash subcommand sinceTs untilTs (some f) =
        cache_key hash subcommand sinceTs untilTs (some f')) ∧
    bound_label none = "all" ∧
    (∀ ts : Int, bound_label (some ts) = toString ts) ∧
    (∀ hash, cache_key hash "metrics" none none none = "metrics-all-all.json") ∧
    (∀ hash, cache_key hash "metrics" (some 1768435200) (some 1768521599) none =
      "metrics-1768435200-1768521599.json") := by
  refine ⟨?_, rfl, fun _ => rfl, fun _ => rfl, fun _ => rfl⟩
  intro hash subcommand sinceTs untilTs f f' h
  show subcommand ++ "-" ++ String.mk (Nat.toDigits 16 (hash (f.insertionSort strLE))) ++ "-" ++
      bound_label sinceTs ++ "-" ++ bound_label untilTs ++ ".json" =
    subcommand ++ "-" ++ String.mk (Nat.toDigits 16 (hash (f'.insertionSort strLE))) ++ "-" ++
      bound_label sinceTs ++ "-" ++ bound_label untilTs ++ ".json"
  rw [insertionSort_perm_eq f f' h]

/-- Witness for `cache_key_deterministic`: two orderings of the same
tracked-file list produce the same key. -/
theorem cache_key_deterministic_witness :
    cache_key (fun l => l.length) "lifecycle" none none (some ["b.rs", "a.rs"]) =
      cache_key (fun l => l.length) "lifecycle" none none (some ["a.rs", "b.rs"]) :=
  cache_key_deterministic.1 (fun l => l.length) "lifecycle" none none
    ["b.rs", "a.rs"] ["a.rs", "b.rs"] (by decide)

/-- Stripping a trailing carriage return only drops characters. -/
theorem stripCr_sublist (l : List Char) : List.Sublist (stripCr l) l := by
  unfold stripCr
  split
  · split
    · exact List.dropLast_sublist l
    · exact List.Sublist.refl l
  · exact List.Sublist.refl l

/-- Every character of an extracted first line is distinct from the
newline character. -/
theorem firstLineChars_mem (l : List Char) :
    ∀ x ∈ firstLineChars l, (!(x = '\n')) = true := by
  intro x hx
  simp only [firstLineChars] at hx
  split at hx
  · exact @List.mem_takeWhile_imp Char (fun c => !(c = '\n')) l x ((stripCr_sublist _).subset hx)
  · exact @List.mem_takeWhile_imp Char (fun c => !(c = '\n')) l x hx

/-- Applying `firstLineChars` to a newline-free list returns it unchanged. -/
theorem firstLineChars_no_newline (r : List Char)
    (h : ∀ x ∈ r, (!(x = '\n')) = true) : firstLineChars r = r := by
  simp only [firstLineChars]
  rw [List.takeWhile_eq_self_iff.mpr h]
  simp

/-- Extracting the first line twice is the same as extracting it once. -/
theorem firstLineChars_idem (l : List Char) :
    firstLineChars (firstLineChars l) = firstLineChars l :=
  firstLineChars_no_newline _ (firstLineChars_mem l)

/-- C8: ticket extraction scans only the first line and applies bracketed
JIRA > unbracketed JIRA > fixes/closes `#N` > bare `#N` priority; a single
uppercase letter before the dash never matches; nothing matching yields
none. -/
theorem ticket_extraction_priority :
    (∀ message : String, extract_ticket_ref message =
      extract_ticket_ref (String.mk (firstLineChars message.data))) ∧
    extract_ticket_ref "fix [CORE-99] for JIRA-123" = some "CORE-99" ∧
    extract_ticket_ref "CORE-1 fixes #2" = some "CORE-1" ∧
    extract_ticket_ref "see #7, fixes #9" = some "#9" ∧
    extract_ticket_ref "A-123 something" = none ∧
    extract_ticket_ref "use # for comments" = none ∧
    extract_ticket_ref "no ticket here\nJIRA-123 in body" = none := by
  refine ⟨?_, by decide, by decide, by decide, by decide, by decide, by decide⟩
  intro message
  show ticketOfLine (firstLineChars message.data) =
    ticketOfLine (firstLineChars (String.mk (firstLineChars message.data)).data)
  rw [show (String.mk (firstLineChars message.data)).data =
    firstLineChars message.data from rfl, firstLineChars_idem]

/-- The `ℚ`-threshold loop agrees with its Nat-valued reference form. -/
theorem busGo_eq_busGoN (total : Nat) :
    ∀ (l : List AuthorStats) (acc i : Nat),
    busGo ((total : ℚ) * (1 / 2)) (acc : ℚ) i l = busGoN total acc i l := by
  intro l
  induction l with
  | nil => intro acc i; rfl
  | cons a rest ih =>
    intro acc i
    have hcond : ((total : ℚ) * (1 / 2) < (acc : ℚ) + (a.commits : ℚ)) ↔
        (total < 2 * (acc + a.commits)) := by
      constructor
      · intro h
        have h2 : (total : ℚ) < ((acc + a.commits : ℕ) : ℚ) * 2 := by push_cast; linarith
        have h3 : total < (acc + a.commits) * 2 := by exact_mod_cast h2
        omega
      · intro h
        have h3 : total < (acc + a.commits) * 2 := by omega
        have h2 : (total : ℚ) < ((acc + a.commits : ℕ) : ℚ) * 2 := by exact_mod_cast h3
        push_cast at h2
        linarith
    show (if (acc : ℚ) + (a.commits : ℚ) > (total : ℚ) * (1 / 2) then i + 1
      else busGo ((total : ℚ) * (1 / 2)) ((acc : ℚ) + (a.commits : ℚ)) (i + 1) rest) =
      (if 2 * (acc + a.commits) > total then i + 1
      else busGoN total (acc + a.commits) (i + 1) rest)
    by_cases h : total < 2 * (acc + a.commits)
    · rw [if_pos (hcond.mpr h), if_pos h]
    · rw [if_neg (fun hq => h (hcond.mp hq)), if_neg h,
        show ((acc : ℚ) + (a.commits : ℚ)) = ((acc + a.commits : ℕ) : ℚ) by push_cast; ring]
      exact ih (acc + a.commits) (i + 1)

/-- Behaviour of the Nat-valued loop: either the 50% threshold is never
crossed and the loop returns the full length, or it returns the first
position whose running prefix sum crosses it. -/
theorem busGoN_spec (total : Nat) :
    ∀ (l : List AuthorStats) (acc i : Nat), ¬ 2 * acc > total →
    (busGoN total acc i l = i + l.length ∧
      ¬ 2 * (acc + ((l.map (·.commits)).sum)) > total) ∨
    (∃ n, 0 < n ∧ n ≤ l.length ∧ busGoN total acc i l = i + n ∧
      2 * (acc + (((l.take n).map (·.commits)).sum)) > total ∧
      ∀ m < n, ¬ 2 * (acc + (((l.take m).map (·.commits)).sum)) > total) := by
  intro l
  induction l with
  | nil =>
    intro acc i hacc
    left
    exact ⟨by simp [busGoN], by simpa using hacc⟩
  | cons a rest ih =>
    intro acc i hacc
    have hcons : busGoN total acc i (a :: rest) =
        if 2 * (acc + a.commits) > total then i + 1
        else busGoN total (acc + a.commits) (i + 1) rest := rfl
    by_cases h : 2 * (acc + a.commits) > total
    · right
      refine ⟨1, Nat.one_pos, by simp, by rw [hcons, if_pos h], by simpa using h, ?_⟩
      intro m hm
      interval_cases m
      simpa using hacc
    · rcases ih (acc + a.commits) (i + 1) h with ⟨h1, h2⟩ | ⟨n, hn0, hnle, heq, htrig, hmin⟩
      · left
        constructor
        · rw [hcons, if_neg h, h1]; simp; omega
        · simp only [List.map_cons, List.sum_cons]
          intro hcontra
          exact h2 (by omega)
      · right
        refine ⟨n + 1, Nat.succ_pos n, by simpa using hnle, ?_, ?_, ?_⟩
        · rw [hcons, if_neg h, heq]; omega
        · simpa [Nat.add_assoc, Nat.add_comm, Nat.add_left_comm] using htrig
        · intro m hm
          match m with
          | 0 => simpa using hacc
          | m' + 1 =>
            have hmn := hmin m' (by omega)
            simpa [Nat.add_assoc, Nat.add_comm, Nat.add_left_comm] using hmn

/-- C9: for a per-directory author list with a positive commit total equal
to the summed author commits, the bus factor is the length of the
smallest prefix whose cumulative commit count strictly exceeds 50% of the
total; one author with all 10 commits yields 1, two authors with 5 of 10
each yield 2. -/
theorem bus_factor_least (authors : List AuthorStats) (total : Nat)
    (htot : 0 < total)
    (hsum : (authors.map (·.commits)).sum = total) :
    (0 < bus_factor authors total ∧
     bus_factor authors total ≤ authors.length ∧
     2 * (((authors.take (bus_factor authors total)).map (·.commits)).sum) > total ∧
     (∀ m, 2 * (((authors.take m).map (·.commits)).sum) > total →
        bus_factor authors total ≤ m)) ∧
    bus_factor [⟨"solo", "s@x", 10⟩] 10 = 1 ∧
    bus_factor [⟨"alice", "a@x", 5⟩, ⟨"bob", "b@x", 5⟩] 10 = 2 := by
  refine ⟨?_, by norm_num [bus_factor, busGo], by norm_num [bus_factor, busGo]⟩
  have hne : authors ≠ [] := by
    rintro rfl
    simp at hsum
    omega
  have hbf : bus_factor authors total = busGoN total 0 0 authors := by
    unfold bus_factor
    rw [if_neg (by simp [htot.ne', hne])]
    have := busGo_eq_busGoN total authors 0 0
    simpa using this
  rcases busGoN_spec total authors 0 0 (by omega) with ⟨_, h2⟩ | ⟨n, hn0, hnle, heq, htrig, hmin⟩
  · exfalso
    rw [Nat.zero_add, hsum] at h2
    omega
  · rw [hbf, heq, Nat.zero_add]
    refine ⟨hn0, hnle, by simpa using htrig, ?_⟩
    intro m hm
    by_contra hcon
    exact hmin m (by omega) (by simpa using hm)

/-- Witness for `bus_factor_least` at the two-equal-author distribution. -/
theorem bus_factor_least_witness :
    (0 < bus_factor [⟨"alice", "a@x", 5⟩, ⟨"bob", "b@x", 5⟩] 10 ∧
     bus_factor [⟨"alice", "a@x", 5⟩, ⟨"bob", "b@x", 5⟩] 10 ≤
       ([⟨"alice", "a@x", 5⟩, ⟨"bob", "b@x", 5⟩] : List AuthorStats).length ∧
     2 * ((([⟨"alice", "a@x", 5⟩, ⟨"bob", "b@x", 5⟩] : List AuthorStats).take
        (bus_factor [⟨"alice", "a@x", 5⟩, ⟨"bob", "b@x", 5⟩] 10)).map (·.commits)).sum > 10 ∧
     (∀ m, 2 * ((([⟨"alice", "a@x", 5⟩, ⟨"bob", "b@x", 5⟩] : List AuthorStats).take m).map
        (·.commits)).sum > 10 →
        bus_factor [⟨"alice", "a@x", 5⟩, ⟨"bob", "b@x", 5⟩] 10 ≤ m)) ∧
    bus_factor [⟨"solo", "s@x", 10⟩] 10 = 1 ∧
    bus_factor [⟨"alice", "a@x", 5⟩, ⟨"bob", "b@x", 5⟩] 10 = 2 :=
  bus_factor_least [⟨"alice", "a@x", 5⟩, ⟨"bob", "b@x", 5⟩] 10 (by decide) (by decide)

/-- What a successful inner gap scan guarantees: the matched distance is
one of the scanned ones, the older commit really sits that far along the
list, it is feat/refactor-classified, and the shared-file list is the
nonempty file overlap. -/
theorem scanGaps_spec (commits : List CommitInfo) (ci : CommitInfo) (i : Nat) :
    ∀ (ds : List Nat) (d : Nat) (older : CommitInfo) (shared : List String),
    scanGaps commits ci i ds = some (d, older, shared) →
    d ∈ ds ∧ commits[i + d]? = some older ∧
    (older.commit_type = "feat" ∨ older.commit_type = "refactor") ∧
    shared = sharedFiles ci older ∧ shared ≠ [] := by
  intro ds
  induction ds with
  | nil => intro d older shared h; simp [scanGaps] at h
  | cons d' ds ih =>
    intro d older shared h
    rcases hget : commits[i + d']? with _ | older'
    · simp only [scanGaps, hget] at h
      exact Option.noConfusion h
    · simp only [scanGaps, hget] at h
      by_cases htype : older'.commit_type = "feat" ∨ older'.commit_type = "refactor"
      · rw [if_pos htype] at h
        by_cases hsh : (sharedFiles ci older').isEmpty
        · rw [if_pos hsh] at h
          obtain ⟨hd, hrest⟩ := ih d older shared h
          exact ⟨List.mem_cons_of_mem _ hd, hrest⟩
        · rw [if_neg hsh] at h
          simp only [Option.some.injEq, Prod.mk.injEq] at h
          obtain ⟨rfl, rfl, rfl⟩ := h
          refine ⟨List.mem_cons_self _ _, hget, htype, rfl, ?_⟩
          intro habs
          rw [habs] at hsh
          simp at hsh
      · rw [if_neg htype] at h
        obtain ⟨hd, hrest⟩ := ih d older shared h
        exact ⟨List.mem_cons_of_mem _ hd, hrest⟩

/-- C1 (amended): every emitted fix-after-feat/refactor signal links a fix
at position `i` to an older commit at position `i + d` with `1 ≤ d ≤ 5`
(so the number of commits strictly between them is `d - 1`), shares a
nonempty file list, and has `severity = 1/(d+1) * min(shared,5)/5` —
equivalently `1/(gap+2) * min(shared,5)/5` for `gap` the strictly-between
count — which lies in `(0, 1]`. -/
theorem signal_severity_amended (commits : List CommitInfo) (limit : Option Nat)
    (s : Signal) (hs : s ∈ (run_impl commits limit).signals) :
    ∃ (i d : ℕ) (fix older : CommitInfo),
      commits[i]? = some fix ∧ commits[i + d]? = some older ∧
      1 ≤ d ∧ d ≤ 5 ∧ s.commits = [older.oid, fix.oid] ∧
      s.files = sharedFiles fix older ∧ s.files ≠ [] ∧
      s.severity = 1 / ((d : ℚ) + 1) * ((min s.files.length 5 : ℕ) / 5 : ℚ) ∧
      0 < s.severity ∧ s.severity ≤ 1 := by
  have hs' : s ∈ fixSignals commits := hs
  rw [fixSignals, List.mem_filterMap] at hs'
  obtain ⟨⟨i, ci⟩, hmem, heq⟩ := hs'
  by_cases hfix : ci.commit_type = "fix"
  case neg => rw [if_neg hfix] at heq; exact absurd heq (by simp)
  rw [if_pos hfix] at heq
  rw [Option.map_eq_some'] at heq
  obtain ⟨⟨d, older, shared⟩, hscan, hmk⟩ := heq
  obtain ⟨hd, hget, _, hsh, hne⟩ := scanGaps_spec commits ci i _ d older shared hscan
  have hidx : commits[i]? = some ci := List.mk_mem_enum_iff_getElem?.mp hmem
  have hd15 : 1 ≤ d ∧ d ≤ 5 := by fin_cases hd <;> omega
  subst hmk
  have hlen : 1 ≤ shared.length := List.length_pos.mpr hne
  have hmin : 1 ≤ min shared.length 5 := le_min hlen (by norm_num)
  have hpos : (0 : ℚ) < 1 / ((d : ℚ) + 1) * ((min shared.length 5 : ℕ) / 5 : ℚ) := by
    apply mul_pos
    · apply one_div_pos.mpr
      positivity
    · apply div_pos _ (by norm_num)
      exact_mod_cast hmin
  have hle : 1 / ((d : ℚ) + 1) * ((min shared.length 5 : ℕ) / 5 : ℚ) ≤ 1 := by
    apply mul_le_one₀
    · rw [div_le_one (by positivity)]
      have : (0 : ℚ) ≤ (d : ℚ) := by positivity
      linarith
    · positivity
    · rw [div_le_one (by norm_num)]
      exact_mod_cast min_le_right shared.length 5
  exact ⟨i, d, ci, older, hidx, hget, hd15.1, hd15.2, rfl, hsh, hne, rfl, hpos, hle⟩

/-- Witness for `signal_severity_amended` at a concrete two-commit history
where a fix directly follows the feat it repairs. -/
theorem signal_severity_amended_witness :
    ∃ (i d : ℕ) (fix older : CommitInfo),
      linkInput[i]? = some fix ∧ linkInput[i + d]? = some older ∧
      1 ≤ d ∧ d ≤ 5 ∧
      (mkSignal fixC featC 1 ["a.rs"]).commits = [older.oid, fix.oid] ∧
      (mkSignal fixC featC 1 ["a.rs"]).files = sharedFiles fix older ∧
      (mkSignal fixC featC 1 ["a.rs"]).files ≠ [] ∧
      (mkSignal fixC featC 1 ["a.rs"]).severity =
        1 / ((d : ℚ) + 1) * ((min (mkSignal fixC featC 1 ["a.rs"]).files.length 5 : ℕ) / 5 : ℚ) ∧
      0 < (mkSignal fixC featC 1 ["a.rs"]).severity ∧
      (mkSignal fixC featC 1 ["a.rs"]).severity ≤ 1 :=
  signal_severity_amended linkInput none (mkSignal fixC featC 1 ["a.rs"])
    (List.Mem.head _)

/-- C1 counterexample to the claim as stated: in `linkInput` the linked
commits are adjacent, so the number of commits strictly between them is 0
(recorded as `gap_commits = 0` in the code's own output) and they share
one file; the emitted severity is `1/10`, while the claimed formula
`1/(gap+1) * min(shared,5)/5 = 1/(0+1) * 1/5` gives `1/5`. -/
theorem severity_formula_counterexample :
    (run_impl linkInput none).fix_after_feat.map (·.gap_commits) = [0] ∧
    (run_impl linkInput none).signals.map (·.severity) =
      [1 / ((1 : ℚ) + 1) * ((min 1 5 : ℕ) / 5 : ℚ)] ∧
    1 / ((1 : ℚ) + 1) * ((min 1 5 : ℕ) / 5 : ℚ) = 1 / 10 ∧
    ¬ (1 / 10 : ℚ) = 1 / ((0 : ℚ) + 1) * ((min 1 5 : ℕ) / 5 : ℚ) := by
  refine ⟨rfl, rfl, by norm_num, by norm_num⟩

/-- C10: supplying a result limit only truncates the four lists — the two
chain lists to at most `min(limit, 10)` (and to at most 10 even with no
limit) — while the signals list and the analyzed-commit count are
identical to those of an unlimited run over the same input. -/
theorem patterns_limit_frame (commits : List CommitInfo) (l : Nat) :
    (run_impl commits (some l)).signals = (run_impl commits none).signals ∧
    (run_impl commits (some l)).total_commits_analyzed =
      (run_impl commits none).total_commits_analyzed ∧
    (run_impl commits (some l)).fix_after_feat =
      ((run_impl commits none).fix_after_feat).take l ∧
    (run_impl commits (some l)).multi_edit_chains =
      ((run_impl commits none).multi_edit_chains).take l ∧
    (run_impl commits (some l)).directory_chains =
      ((run_impl commits none).directory_chains).take l ∧
    (run_impl commits (some l)).temporal_clusters =
      ((run_impl commits none).temporal_clusters).take l ∧
    (run_impl commits (some l)).multi_edit_chains.length ≤ min l 10 ∧
    (run_impl commits (some l)).directory_chains.length ≤ min l 10 ∧
    (run_impl commits none).multi_edit_chains.length ≤ 10 ∧
    (run_impl commits none).directory_chains.length ≤ 10 := by
  have hcap : (if l < 10 then l else 10) = min l 10 := by
    split <;> omega
  refine ⟨rfl, rfl, rfl, ?_, ?_, rfl, ?_, ?_, ?_, ?_⟩
  · show (multiEditChainsOf commits).take (if l < 10 then l else 10) =
      ((multiEditChainsOf commits).take 10).take l
    rw [List.take_take, hcap, Nat.min_comm]
  · show (directoryChainsOf commits).take (if l < 10 then l else 10) =
      ((directoryChainsOf commits).take 10).take l
    rw [List.take_take, hcap, Nat.min_comm]
  · show ((multiEditChainsOf commits).take (if l < 10 then l else 10)).length ≤ min l 10
    rw [hcap]
    exact List.length_take_le _ _
  · show ((directoryChainsOf commits).take (if l < 10 then l else 10)).length ≤ min l 10
    rw [hcap]
    exact List.length_take_le _ _
  · exact List.length_take_le _ _
  · exact List.length_take_le _ _

/-- The greedy run partition covers the group exactly: concatenating the
runs gives back the input list. -/
theorem greedyRunsAux_flatten :
    ∀ (fuel : Nat) (l : List CommitInfo), l.length ≤ fuel →
    (greedyRunsAux fuel l).flatten = l := by
  intro fuel
  induction fuel with
  | zero =>
    intro l hl
    have hnil : l = [] := List.length_eq_zero.mp (Nat.le_zero.mp hl)
    subst hnil
    rfl
  | succ fuel ih =>
    intro l hl
    match l with
    | [] => rfl
    | c :: rest =>
      have hr : rest.length ≤ fuel := by
        simpa using Nat.succ_le_succ_iff.mp (by simpa using hl)
      have hd : (rest.dropWhile (withinWindow c)).length ≤ fuel :=
        le_trans (List.dropWhile_sublist _).length_le hr
      show ((c :: rest.takeWhile (withinWindow c)) ::
        greedyRunsAux fuel (rest.dropWhile (withinWindow c))).flatten = c :: rest
      rw [List.flatten_cons, ih _ hd, List.cons_append, List.takeWhile_append_dropWhile]

/-- Dropping some of the chunks of a concatenation yields a sublist. -/
theorem flatten_sublist_mono {α : Type} {rs rs' : List (List α)}
    (h : List.Sublist rs rs') : List.Sublist rs.flatten rs'.flatten := by
  induction h with
  | slnil => exact List.Sublist.refl _
  | cons a _ ih => exact ih.trans (List.sublist_append_right _ _)
  | cons₂ a _ ih => exact ih.append_left a

/-- The `flatMap` operation is monotone with respect to sublists. -/
theorem flatMap_sublist_mono {α β : Type} (f : α → List β) {l l' : List α}
    (h : List.Sublist l l') : List.Sublist (l.flatMap f) (l'.flatMap f) := by
  induction h with
  | slnil => exact List.Sublist.refl _
  | cons a _ ih =>
    rw [List.flatMap_cons]
    exact ih.trans (List.sublist_append_right _ _)
  | cons₂ a _ ih =>
    rw [List.flatMap_cons, List.flatMap_cons]
    exact ih.append_left _

/-- Every greedy run is nonempty, starts at its first member, all its
members are within 3600 seconds of that first member, and (when the input
is sorted ascending) no member is earlier than it. -/
theorem greedyRunsAux_runs :
    ∀ (fuel : Nat) (l : List CommitInfo), l.length ≤ fuel →
    ∀ r ∈ greedyRunsAux fuel l,
      ∃ c t, r = c :: t ∧ (∀ x ∈ r, x.timestamp - c.timestamp ≤ 3600) ∧
        (l.Pairwise tsLE → ∀ x ∈ r, c.timestamp ≤ x.timestamp) := by
  intro fuel
  induction fuel with
  | zero => intro l _ r hr; simp [greedyRunsAux] at hr
  | succ fuel ih =>
    intro l hl r hr
    match l with
    | [] => simp [greedyRunsAux] at hr
    | c :: rest =>
      have hrlen : rest.length ≤ fuel := by
        simpa using Nat.succ_le_succ_iff.mp (by simpa using hl)
      have hdlen : (rest.dropWhile (withinWindow c)).length ≤ fuel :=
        le_trans (List.dropWhile_sublist _).length_le hrlen
      have hr' : r = c :: rest.takeWhile (withinWindow c) ∨
          r ∈ greedyRunsAux fuel (rest.dropWhile (withinWindow c)) := by
        simpa [greedyRunsAux] using hr
      rcases hr' with rfl | hr'
      · refine ⟨c, _, rfl, ?_, ?_⟩
        · intro x hx
          rcases List.mem_cons.mp hx with rfl | hx
          · omega
          · have hw : withinWindow c x = true :=
              @List.mem_takeWhile_imp CommitInfo (withinWindow c) rest x hx
            simpa [withinWindow] using hw
        · intro hsort x hx
          rcases List.mem_cons.mp hx with rfl | hx
          · exact le_refl _
          · have hxrest : x ∈ rest := (List.takeWhile_sublist _).subset hx
            exact (List.pairwise_cons.mp hsort).1 x hxrest
      · obtain ⟨c', t, hrt, hwin, hmono⟩ := ih _ hdlen r hr'
        refine ⟨c', t, hrt, hwin, ?_⟩
        intro hsort
        exact hmono (List.Pairwise.sublist ((List.dropWhile_sublist
          (withinWindow c)).trans (List.sublist_cons_self c rest)) hsort)

/-- Projecting the member lists back out of the built cluster records
gives the runs themselves. -/
theorem flatMap_commits_map_mkCluster (ctype : String) :
    ∀ (rs : List (List CommitInfo)),
    ((rs.map (mkCluster ctype)).flatMap (fun tc => tc.commits)) = rs.flatten := by
  intro rs
  induction rs with
  | nil => rfl
  | cons r rs ih => simp [mkCluster, ih]

/-- The members of one label group's clusters are drawn from the group
without reuse. -/
theorem clustersForGroup_subperm (ctype : String) (g : List CommitInfo) :
    ((clustersForGroup ctype g).flatMap (fun tc => tc.commits)).Subperm g := by
  unfold clustersForGroup
  rw [flatMap_commits_map_mkCluster]
  have h1 : List.Sublist
      (((greedyRuns (g.insertionSort tsLE)).filter (fun r => decide (r.length ≥ 3))).flatten)
      ((greedyRuns (g.insertionSort tsLE)).flatten) :=
    flatten_sublist_mono (List.filter_sublist _)
  rw [greedyRuns, greedyRunsAux_flatten _ _ le_rfl] at h1
  exact h1.subperm.trans (List.perm_insertionSort tsLE g).subperm

/-- The structural facts about any cluster of one label group. -/
theorem clustersForGroup_mem_spec (ctype : String) (g : List CommitInfo)
    (tc : TemporalCluster) (htc : tc ∈ clustersForGroup ctype g) :
    tc.cluster_type = ctype ∧ 3 ≤ tc.commits.length ∧
    (∀ x ∈ tc.commits, x ∈ g) ∧
    (∀ first, tc.commits.head? = some first →
      ∀ m ∈ tc.commits, first.timestamp ≤ m.timestamp ∧
        m.timestamp ≤ first.timestamp + 3600) := by
  unfold clustersForGroup at htc
  rw [List.mem_map] at htc
  obtain ⟨r, hr, rfl⟩ := htc
  rw [List.mem_filter] at hr
  obtain ⟨hrmem, hrlen⟩ := hr
  have hsorted : (g.insertionSort tsLE).Pairwise tsLE := List.sorted_insertionSort tsLE g
  obtain ⟨c, t, hrt, hwin, hmono⟩ := greedyRunsAux_runs _ _ le_rfl r hrmem
  refine ⟨rfl, by simpa using hrlen, ?_, ?_⟩
  · intro x hx
    have hxs : x ∈ (greedyRuns (g.insertionSort tsLE)).flatten :=
      List.mem_flatten_of_mem hrmem hx
    rw [greedyRuns, greedyRunsAux_flatten _ _ le_rfl] at hxs
    exact (List.mem_insertionSort tsLE).mp hxs
  · intro first hfirst m hm
    have hc : first = c := by
      rw [hrt] at hfirst
      simp [mkCluster] at hfirst
      exact hfirst.symm
    subst hc
    refine ⟨hmono hsorted m hm, ?_⟩
    have := hwin m hm
    omega

/-- Per-group member counts never exceed the group's counts. -/
theorem count_clustersForGroup_le (ctype : String) (g : List CommitInfo) (x : CommitInfo) :
    List.count x ((clustersForGroup ctype g).flatMap (fun tc => tc.commits)) ≤
      List.count x g :=
  (clustersForGroup_subperm ctype g).count_le x

/-- A commit of a different label is never a member of a label group's
clusters. -/
theorem count_group_zero (commits : List CommitInfo) (x : CommitInfo) (lb : String)
    (h : x.commit_type ≠ lb) :
    List.count x ((clustersForGroup lb
      (commits.filter (fun c => decide (c.commit_type = lb)))).flatMap
        (fun tc => tc.commits)) = 0 := by
  rw [List.count_eq_zero]
  intro hx
  rw [List.mem_flatMap] at hx
  obtain ⟨tc, htc, hxtc⟩ := hx
  have hmem := (clustersForGroup_mem_spec _ _ _ htc).2.2.1 x hxtc
  rw [List.mem_filter] at hmem
  exact h (by simpa using hmem.2)

/-- Groups whose label differs from the commit's contribute no members. -/
theorem count_groups_zero (commits : List CommitInfo) (x : CommitInfo) :
    ∀ (ls : List String), (∀ lb ∈ ls, x.commit_type ≠ lb) →
    List.count x (ls.flatMap (fun lb => (clustersForGroup lb
      (commits.filter (fun c => decide (c.commit_type = lb)))).flatMap
        (fun tc => tc.commits))) = 0 := by
  intro ls
  induction ls with
  | nil => intro _; rfl
  | cons lb ls ih =>
    intro h
    rw [List.flatMap_cons, List.count_append,
      count_group_zero commits x lb (h lb (List.mem_cons_self lb ls)),
      ih (fun lb' hm => h lb' (List.mem_cons_of_mem _ hm))]

/-- Counting members across all label groups never exceeds the input
count, label lists being duplicate-free. -/
theorem count_flatMap_groups (commits : List CommitInfo) (x : CommitInfo) :
    ∀ (ls : List String), ls.Nodup →
    List.count x (ls.flatMap (fun lb => (clustersForGroup lb
      (commits.filter (fun c => decide (c.commit_type = lb)))).flatMap
        (fun tc => tc.commits))) ≤ List.count x commits := by
  intro ls
  induction ls with
  | nil => intro _; simp
  | cons lb ls ih =>
    intro hnd
    rw [List.flatMap_cons, List.count_append]
    obtain ⟨hlb, hnd'⟩ := List.nodup_cons.mp hnd
    by_cases hx : x.commit_type = lb
    · have h1 : List.count x ((clustersForGroup lb
          (commits.filter (fun c => decide (c.commit_type = lb)))).flatMap
            (fun tc => tc.commits)) ≤ List.count x commits := by
        refine le_trans (count_clustersForGroup_le _ _ _) ?_
        rw [List.count_filter (by simp [hx])]
      have h2 : List.count x (ls.flatMap (fun lb => (clustersForGroup lb
          (commits.filter (fun c => decide (c.commit_type = lb)))).flatMap
            (fun tc => tc.commits))) = 0 := by
        refine count_groups_zero commits x ls (fun lb' hm => ?_)
        rw [hx]
        intro hcon
        exact hlb (hcon ▸ hm)
      omega
    · have h1 := count_group_zero commits x lb hx
      have h2 := ih hnd'
      omega

/-- No commit occurrence is used by two different temporal clusters. -/
theorem temporalClustersOf_subperm (commits : List CommitInfo) :
    ((temporalClustersOf commits).flatMap (fun tc => tc.commits)).Subperm commits := by
  rw [List.subperm_ext_iff]
  intro x _
  rw [temporalClustersOf, List.flatMap_assoc]
  exact count_flatMap_groups commits x _ (List.nodup_dedup _)

/-- C4: in the clustering of the patterns analysis, no commit appears in
two different clusters (the concatenated member lists form a
sub-permutation of the input); every cluster has ≥ 3 members, all of the
cluster's label, and every member is within 3600 seconds (inclusive) of
the cluster's earliest member. -/
theorem temporal_cluster_invariants (commits : List CommitInfo) (limit : Option Nat) :
    ((run_impl commits limit).temporal_clusters.flatMap (fun tc => tc.commits)).Subperm
      commits ∧
    (∀ tc ∈ (run_impl commits limit).temporal_clusters,
      3 ≤ tc.commits.length ∧
      (∀ m ∈ tc.commits, m.commit_type = tc.cluster_type) ∧
      (∀ first, tc.commits.head? = some first →
        ∀ m ∈ tc.commits, first.timestamp ≤ m.timestamp ∧
          m.timestamp ≤ first.timestamp + 3600)) := by
  have hsub : List.Sublist (run_impl commits limit).temporal_clusters
      ((temporalClustersOf commits).insertionSort countGE) := by
    cases limit with
    | none => exact List.Sublist.refl _
    | some l => exact List.take_sublist l _
  constructor
  · refine List.Subperm.trans ?_ (temporalClustersOf_subperm commits)
    refine List.Subperm.trans (flatMap_sublist_mono _ hsub).subperm ?_
    exact ((List.perm_insertionSort countGE _).flatMap_right _).subperm
  · intro tc htc
    have htc0 : tc ∈ temporalClustersOf commits :=
      (List.mem_insertionSort countGE).mp (hsub.subset htc)
    rw [temporalClustersOf, List.mem_flatMap] at htc0
    obtain ⟨lb, _, htcg⟩ := htc0
    obtain ⟨hty, hlen, hmemg, hwin⟩ := clustersForGroup_mem_spec _ _ _ htcg
    refine ⟨hlen, ?_, hwin⟩
    intro m hm
    have := hmemg m hm
    rw [List.mem_filter] at this
    rw [hty]
    simpa using this.2

/-- Witness for `temporal_cluster_invariants`: the cluster that the
analysis finds in a three-docs-commit history within one hour. -/
theorem temporal_cluster_invariants_witness :
    3 ≤ docsCluster.commits.length ∧
    (∀ m ∈ docsCluster.commits, m.commit_type = docsCluster.cluster_type) ∧
    (∀ first, docsCluster.commits.head? = some first →
      ∀ m ∈ docsCluster.commits, first.timestamp ≤ m.timestamp ∧
        m.timestamp ≤ first.timestamp + 3600) :=
  (temporal_cluster_invariants docsInput none).2 docsCluster (by decide)

/-- Pairs produced by one forward scan come from the scanned suffix and
passed the ratio guard. -/
theorem scanPairs_mem (a : FileEntry) :
    ∀ (l : List FileEntry) (p : ConvergencePair), p ∈ scanPairs a l →
    ∃ b ∈ l, p = mkPair a b ∧ (9 : ℚ) / 10 ≤ pairRatioQ a b := by
  intro l
  induction l with
  | nil => intro p hp; simp [scanPairs] at hp
  | cons b rest ih =>
    intro p hp
    simp only [scanPairs] at hp
    by_cases hc : (9 : ℚ) / 10 ≤ pairRatioQ a b
    · rw [if_pos hc] at hp
      rcases List.mem_cons.mp hp with rfl | hp'
      · exact ⟨b, List.mem_cons_self _ _, rfl, hc⟩
      · obtain ⟨b', hb', heq, hcond⟩ := ih p hp'
        exact ⟨b', List.mem_cons_of_mem _ hb', heq, hcond⟩
    · rw [if_neg hc] at hp
      simp at hp

/-- Every collected pair comes from two files of the scanned list and
passed the ratio guard. -/
theorem allPairs_mem :
    ∀ (l : List FileEntry) (p : ConvergencePair), p ∈ allPairs l →
    ∃ a b, a ∈ l ∧ b ∈ l ∧ p = mkPair a b ∧ (9 : ℚ) / 10 ≤ pairRatioQ a b := by
  intro l
  induction l with
  | nil => intro p hp; simp [allPairs] at hp
  | cons a rest ih =>
    intro p hp
    rcases List.mem_append.mp (by simpa [allPairs] using hp) with hp1 | hp2
    · obtain ⟨b, hb, heq, hc⟩ := scanPairs_mem a rest p hp1
      exact ⟨a, b, List.mem_cons_self _ _, List.mem_cons_of_mem _ hb, heq, hc⟩
    · obtain ⟨a', b', ha', hb', heq, hc⟩ := ih p hp2
      exact ⟨a', b', List.mem_cons_of_mem _ ha', List.mem_cons_of_mem _ hb', heq, hc⟩

/-- A ratio that passed the 0.90 guard is at most 1 (smaller/larger). -/
theorem pairRatioQ_le_one (a b : FileEntry) (h : (9 : ℚ) / 10 ≤ pairRatioQ a b) :
    pairRatioQ a b ≤ 1 := by
  unfold pairRatioQ at *
  rcases Nat.eq_zero_or_pos (max a.size b.size) with h0 | hpos
  · rw [h0] at h
    norm_num at h
  · rw [div_le_one (by exact_mod_cast hpos)]
    exact_mod_cast min_le_max

/-- C3: every emitted convergence pair is built from two snapshot files
whose sizes are at least the configured minimum, its ratio satisfies
`0.90 ≤ ratio ≤ 1`, and the emitted list never exceeds the smaller of the
two configured limits. -/
theorem convergence_invariants (files : List FileEntry) (minSize lim1 lim2 : Nat) :
    (convergence_pairs files minSize lim1 lim2).1.length ≤ min lim1 lim2 ∧
    ∀ p ∈ (convergence_pairs files minSize lim1 lim2).1,
      (∃ a ∈ files, p.path_a = a.path ∧ p.size_a = a.size) ∧
      (∃ b ∈ files, p.path_b = b.path ∧ p.size_b = b.size) ∧
      minSize ≤ p.size_a ∧ minSize ≤ p.size_b ∧
      (9 : ℚ) / 10 ≤ p.ratioQ ∧ p.ratioQ ≤ 1 := by
  constructor
  · exact List.length_take_le _ _
  · intro p hp
    have hp1 : p ∈ (allPairs ((files.filter
        (fun f => decide (minSize ≤ f.size))).insertionSort sizeLE)).insertionSort ratioGE :=
      (List.take_sublist _ _).subset hp
    have hp2 : p ∈ allPairs ((files.filter
        (fun f => decide (minSize ≤ f.size))).insertionSort sizeLE) :=
      (List.mem_insertionSort ratioGE).mp hp1
    obtain ⟨a, b, ha, hb, rfl, hc⟩ := allPairs_mem _ p hp2
    have ha' := List.mem_filter.mp ((List.mem_insertionSort sizeLE).mp ha)
    have hb' := List.mem_filter.mp ((List.mem_insertionSort sizeLE).mp hb)
    exact ⟨⟨a, ha'.1, rfl, rfl⟩, ⟨b, hb'.1, rfl, rfl⟩, by simpa using ha'.2,
      by simpa using hb'.2, hc, pairRatioQ_le_one a b hc⟩

/-- Witness for `convergence_invariants` at a two-file snapshot of sizes
95 and 100 bytes. -/
theorem convergence_invariants_witness :
    (∃ a ∈ convFiles, (mkPair fileA fileB).path_a = a.path ∧
      (mkPair fileA fileB).size_a = a.size) ∧
    (∃ b ∈ convFiles, (mkPair fileA fileB).path_b = b.path ∧
      (mkPair fileA fileB).size_b = b.size) ∧
    10 ≤ (mkPair fileA fileB).size_a ∧ 10 ≤ (mkPair fileA fileB).size_b ∧
    (9 : ℚ) / 10 ≤ (mkPair fileA fileB).ratioQ ∧ (mkPair fileA fileB).ratioQ ≤ 1 := by
  have hcond : (9 : ℚ) / 10 ≤ pairRatioQ fileA fileB := by
    unfold pairRatioQ
    have h1 : min fileA.size fileB.size = 95 := by decide
    have h2 : max fileA.size fileB.size = 100 := by decide
    rw [h1, h2]
    norm_num
  have hmem : mkPair fileA fileB ∈ (convergence_pairs convFiles 10 5 5).1 := by
    have hfil : convFiles.filter (fun f => decide (10 ≤ f.size)) = [fileA, fileB] := by decide
    have hsor : ([fileA, fileB] : List FileEntry).insertionSort sizeLE = [fileA, fileB] := by
      decide
    have hall : allPairs ((convFiles.filter
        (fun f => decide (10 ≤ f.size))).insertionSort sizeLE) = [mkPair fileA fileB] := by
      rw [hfil, hsor]
      simp [allPairs, scanPairs, hcond]
    show mkPair fileA fileB ∈
      ((allPairs ((convFiles.filter
        (fun f => decide (10 ≤ f.size))).insertionSort sizeLE)).insertionSort ratioGE).take
          (min 5 5)
    rw [hall]
    simp [List.insertionSort]
  exact (convergence_invariants convFiles 10 5 5).2 (mkPair fileA fileB) hmem

end GitIntel
